import Mathlib

/-!
Verification development for pmp's SurfaceTriangulation
(src/src/algorithms/SurfaceTriangulation.cpp).

The dynamic-programming cost planner, the per-triangle weight function and
the diagonal committer are embedded as executable Lean definitions.  The
floating `Scalar` is modelled as `WithTop ℚ`, where `⊤` plays the role of
`std::numeric_limits<Scalar>::max()` (the saturating maximum used as the
"infinite" weight); the surrounding half-edge mesh, which this file's source
consumes only through a fixed interface, is modelled as an abstract
operations record.
-/

namespace pmp

/-- Scalar models the C++ `Scalar`: a finite (exact rational) value, or `⊤`
standing for `std::numeric_limits<Scalar>::max()`. -/
abbrev Scalar := WithTop ℚ

/-- Point with exact rational coordinates (`pmp::Point`). -/
structure Point where
  x : ℚ
  y : ℚ
  z : ℚ

instance : Sub Point := ⟨fun p q => ⟨p.x - q.x, p.y - q.y, p.z - q.z⟩⟩

/-- Cross product of two 3D vectors (`pmp::cross`). -/
def cross (u v : Point) : Point :=
  ⟨u.y * v.z - u.z * v.y, u.z * v.x - u.x * v.z, u.x * v.y - u.y * v.x⟩

/-- Dot product of two 3D vectors (`pmp::dot`). -/
def dot (u v : Point) : ℚ := u.x * v.x + u.y * v.y + u.z * v.z

/-- Squared norm of a 3D vector (`pmp::sqrnorm`). -/
def sqrnorm (u : Point) : ℚ := dot u u

/-- Modelled from the spec: the half-edge mesh interface consumed by the
triangulation core (`pmp::SurfaceMesh`, whose implementation is an external
collaborator of this file).  Vertices, half-edges and faces are identified by
natural-number handles; `halfedge` returns a face's starting boundary
half-edge, `next_halfedge` advances around a face loop, `to_vertex` gives a
half-edge's target vertex, `find_halfedge` looks up the half-edge from one
vertex to another (if any), `is_manifold` queries vertex manifoldness,
`insert_edge` splits a face by inserting an edge between the targets of two
half-edges, and `point` retrieves a vertex position. -/
structure MeshOps (M : Type) where
  halfedge : M → ℕ → ℕ
  next_halfedge : M → ℕ → ℕ
  to_vertex : M → ℕ → ℕ
  find_halfedge : M → ℕ → ℕ → Option ℕ
  is_manifold : M → ℕ → Bool
  insert_edge : M → ℕ → ℕ → M
  point : M → ℕ → Point

/-- The `MIN_AREA` objective selector (first value of the C++ `Objective`
enum, underlying value 0). -/
def MIN_AREA : ℕ := 0

/-- The `MAX_ANGLE` objective selector (second value of the C++ `Objective`
enum, underlying value 1). -/
def MAX_ANGLE : ℕ := 1

variable {M : Type}

/-- Does any half-edge connect the two vertices
(`SurfaceTriangulation::is_edge`)? -/
def is_edge (ops : MeshOps M) (m : M) (a b : ℕ) : Bool :=
  (ops.find_halfedge m a b).isSome

/-- Per-candidate-triangle weight (`SurfaceTriangulation::compute_weight`).
`vertices` is the collected boundary vertex sequence of the face being
triangulated, `nrm` the vector normalization of the external vector library,
and `obj` the objective selector.  If all three candidate edges already exist
in the mesh the weight is `⊤`; otherwise the geometric weight of the selected
objective is returned (an unrecognized objective leaves the initial `⊤`). -/
def compute_weight (ops : MeshOps M) (nrm : Point → Point) (m : M)
    (vertices : List ℕ) (obj : ℕ) (i j k : ℕ) : Scalar :=
  let a := vertices.getD i 0
  let b := vertices.getD j 0
  let c := vertices.getD k 0
  if is_edge ops m a b && is_edge ops m b c && is_edge ops m c a then ⊤
  else
    let pa := ops.point m a
    let pb := ops.point m b
    let pc := ops.point m c
    if obj = MIN_AREA then ((sqrnorm (cross (pb - pa) (pc - pa)) : ℚ) : Scalar)
    else if obj = MAX_ANGLE then
      ((max (dot (nrm (pb - pa)) (nrm (pc - pa)))
          (max (dot (nrm (pa - pb)) (nrm (pc - pb)))
            (dot (nrm (pa - pc)) (nrm (pb - pc)))) : ℚ) : Scalar)
    else ⊤

/-- Combine the two sub-range costs `a`, `b` and triangle weight `c` for one
candidate split, as in the `switch` of the DP inner loop: additively for
`MIN_AREA`, by maximum for `MAX_ANGLE`, fatally (`exit(1)`, modelled as
`none`) for any other objective value. -/
def combine (obj : ℕ) (a b c : Scalar) : Option Scalar :=
  if obj = MIN_AREA then some (a + c + b)
  else if obj = MAX_ANGLE then some (max a (max c b))
  else none

/-- Total version of `combine` for the two recognized objectives. -/
def combineP (obj : ℕ) (a b c : Scalar) : Scalar :=
  if obj = MIN_AREA then a + c + b else max a (max c b)

/-- One step of the DP inner loop: replace the incumbent `(wmin, imin)` pair
by `(f m, m)` exactly when the candidate's combined cost is strictly
smaller. -/
def argminStep (f : ℕ → Scalar) (p : Scalar × ℤ) (m : ℕ) : Scalar × ℤ :=
  if f m < p.1 then (f m, (m : ℤ)) else p

/-- The DP inner loop over candidates `i < m < k` (the `for (m = i + 1; m < k;
++m)` loop), starting from `wmin = ⊤`, `imin = -1`; fatal objective values
short-circuit to `none`. -/
def scanSplit (obj : ℕ) (W : ℕ → ℕ → Scalar) (cw : ℕ → ℕ → ℕ → Scalar)
    (i k : ℕ) : Option (Scalar × ℤ) :=
  (List.range' (i + 1) (k - i - 1)).foldlM
    (fun p m => (combine obj (W i m) (W m k) (cw i m k)).map
      (fun w => if w < p.1 then (w, (m : ℤ)) else p))
    ((⊤ : Scalar), (-1 : ℤ))

/-- Pure version of the DP inner loop, for the two recognized objectives. -/
def scanSplitP (obj : ℕ) (W : ℕ → ℕ → Scalar) (cw : ℕ → ℕ → ℕ → Scalar)
    (i k : ℕ) : Scalar × ℤ :=
  (List.range' (i + 1) (k - i - 1)).foldl
    (argminStep fun m => combineP obj (W i m) (W m k) (cw i m k))
    ((⊤ : Scalar), (-1 : ℤ))

/-- The planner's pair of tables: `weight` is the cost table, `index` the
split table (`weight_` and `index_` members). -/
structure Tables where
  weight : ℕ → ℕ → Scalar
  index : ℕ → ℕ → ℤ

/-- Initial tables: every cost `⊤` and every split `0` (the `resize` calls),
then cost `0` and split `-1` for every adjacent pair (the 2-gon loop). -/
def initTables (n : ℕ) : Tables :=
  { weight := fun a b => if a < n - 1 ∧ b = a + 1 then 0 else ⊤
    index := fun a b => if a < n - 1 ∧ b = a + 1 then -1 else 0 }

/-- One DP cell update: run the inner loop for range `(i, k)` and store the
resulting `(wmin, imin)` into the tables. -/
def dpStep (obj : ℕ) (cw : ℕ → ℕ → ℕ → Scalar) (T : Tables) (i k : ℕ) :
    Option Tables :=
  (scanSplit obj T.weight cw i k).map fun r =>
    { weight := fun a b => if a = i ∧ b = k then r.1 else T.weight a b
      index := fun a b => if a = i ∧ b = k then r.2 else T.index a b }

/-- Pure version of `dpStep`, for the two recognized objectives. -/
def dpStepP (obj : ℕ) (cw : ℕ → ℕ → ℕ → Scalar) (T : Tables) (i k : ℕ) :
    Tables :=
  let r := scanSplitP obj T.weight cw i k
  { weight := fun a b => if a = i ∧ b = k then r.1 else T.weight a b
    index := fun a b => if a = i ∧ b = k then r.2 else T.index a b }

/-- The DP table construction (the nested `j`/`i` loops of
`SurfaceTriangulation::triangulate(Face, Objective)`): spans `j = 2 .. n-1`,
starts `i = 0 .. n-j-1`; `none` models the `exit(1)` on an unrecognized
objective. -/
def buildTables (n obj : ℕ) (cw : ℕ → ℕ → ℕ → Scalar) : Option Tables :=
  (List.range' 2 (n - 2)).foldlM
    (fun T j =>
      (List.range (n - j)).foldlM (fun T' i => dpStep obj cw T' i (i + j)) T)
    (initTables n)

/-- One round of the pure DP: all starts `i` for a fixed span `j`. -/
def roundFold (obj : ℕ) (cw : ℕ → ℕ → ℕ → Scalar) (j : ℕ) (l : List ℕ)
    (T : Tables) : Tables :=
  l.foldl (fun T' i => dpStepP obj cw T' i (i + j)) T

/-- Pure DP round over all valid starts for span `j`. -/
def dpRound (n obj : ℕ) (cw : ℕ → ℕ → ℕ → Scalar) (T : Tables) (j : ℕ) :
    Tables :=
  roundFold obj cw j (List.range (n - j)) T

/-- Fold of pure DP rounds over a list of spans. -/
def roundsFold (n obj : ℕ) (cw : ℕ → ℕ → ℕ → Scalar) (js : List ℕ)
    (T : Tables) : Tables :=
  js.foldl (dpRound n obj cw) T

/-- Pure DP table construction for the two recognized objectives. -/
def buildTablesP (n obj : ℕ) (cw : ℕ → ℕ → ℕ → Scalar) : Tables :=
  roundsFold n obj cw (List.range' 2 (n - 2)) (initTables n)

/-- The `do { h = next(h); ... } while (h != h0)` search of `insert_edge`:
advance from `h` and report the first half-edge whose target is `tgt`
(`some (some h')`), report `some none` when the walk returns to `h0` without
finding it, and `none` when the step budget runs out (a face loop that never
closes). -/
def walkSearch (ops : MeshOps M) (m : M) (h0 tgt : ℕ) :
    ℕ → ℕ → Option (Option ℕ)
  | 0, _ => none
  | fuel + 1, h =>
    let h' := ops.next_halfedge m h
    if ops.to_vertex m h' = tgt then some (some h')
    else if h' = h0 then some none
    else walkSearch ops m h0 tgt fuel h'

/-- Directional search used by `insert_edge`, started at `h0`. -/
def walkFrom (ops : MeshOps M) (m : M) (h0 tgt fuel : ℕ) :
    Option (Option ℕ) :=
  walkSearch ops m h0 tgt fuel h0

/-- Edge insertion between boundary indices `i` and `j` of the collected
polygon (`SurfaceTriangulation::insert_edge`).  Returns the (possibly
unchanged) mesh and the C++ boolean result; `none` models undefined behavior
(an out-of-range boundary index) or a walk that never settles. -/
def insert_edge (ops : MeshOps M) (fuel : ℕ) (halfedges vertices : List ℕ)
    (m : M) (i j : ℤ) : Option (M × Bool) :=
  if 0 ≤ i ∧ i < (halfedges.length : ℤ) ∧ 0 ≤ j ∧ j < (halfedges.length : ℤ) ∧
      i < (vertices.length : ℤ) ∧ j < (vertices.length : ℤ) then
    let h0 := halfedges.getD i.toNat 0
    let h1 := halfedges.getD j.toNat 0
    let v0 := vertices.getD i.toNat 0
    let v1 := vertices.getD j.toNat 0
    if (ops.find_halfedge m v0 v1).isSome then some (m, false)
    else
      match walkFrom ops m h0 v1 fuel with
      | none => none
      | some (some h) => some (ops.insert_edge m h0 h, true)
      | some none =>
        match walkFrom ops m h1 v0 fuel with
        | none => none
        | some (some h) => some (ops.insert_edge m h1 h, true)
        | some none => some (m, false)
  else none

/-- Sum over the stack of `3 ^ span`; a strictly decreasing measure of the
commit phase's explicit stack. -/
def stackMeasure (st : List (ℤ × ℤ)) : ℕ :=
  (st.map fun p => 3 ^ (p.2 - p.1).toNat).sum

/-- The commit phase's stack-driven traversal (the `while (!todo.empty())`
loop): pop a range, discard it when its span is below 2, otherwise look up
its split, insert the two diagonals and push the two sub-ranges.  `ins` is
the edge-insertion action; `none` models undefined behavior (a split-table
lookup outside `[0, n)`) or an insertion that does not settle, and fuel
exhaustion. -/
def commitLoop (n : ℕ) (ins : M → ℤ → ℤ → Option M) (idx : ℕ → ℕ → ℤ) :
    ℕ → M → List (ℤ × ℤ) → Option M
  | 0, _, _ => none
  | _ + 1, m, [] => some m
  | fuel + 1, m, (s, e) :: todo =>
    if e - s < 2 then commitLoop n ins idx fuel m todo
    else if 0 ≤ s ∧ e < (n : ℤ) then
      let split := idx s.toNat e.toNat
      match ins m s split with
      | none => none
      | some m₁ =>
        match ins m₁ split e with
        | none => none
        | some m₂ => commitLoop n ins idx fuel m₂ ((split, e) :: (s, split) :: todo)
    else none

/-- The boundary collection walk of `triangulate(Face, Objective)` without
the manifoldness check: the plain `do { push(h); h = next(h); } while (h !=
h0)` traversal, `none` when the loop does not close within the budget. -/
def faceWalkAux (ops : MeshOps M) (m : M) (h0 : ℕ) :
    ℕ → ℕ → Option (List ℕ)
  | 0, _ => none
  | fuel + 1, h =>
    let h' := ops.next_halfedge m h
    if h' = h0 then some [h]
    else (faceWalkAux ops m h0 fuel h').map (fun l => h :: l)

/-- Boundary walk of a face, started at the face's half-edge. -/
def faceWalk (ops : MeshOps M) (m : M) (f fuel : ℕ) : Option (List ℕ) :=
  faceWalkAux ops m (ops.halfedge m f) fuel (ops.halfedge m f)

/-- The boundary collection walk with the per-vertex manifoldness check of
the source: `some none` reports a non-manifold boundary vertex (the early
`return`), `some (some hs)` the collected half-edge sequence. -/
def collectWalkAux (ops : MeshOps M) (m : M) (h0 : ℕ) :
    ℕ → ℕ → Option (Option (List ℕ))
  | 0, _ => none
  | fuel + 1, h =>
    if ops.is_manifold m (ops.to_vertex m h) = false then some none
    else
      let h' := ops.next_halfedge m h
      if h' = h0 then some (some [h])
      else (collectWalkAux ops m h0 fuel h').map (fun r => r.map (fun l => h :: l))

/-- Checked boundary collection of a face. -/
def collectWalk (ops : MeshOps M) (m : M) (f fuel : ℕ) :
    Option (Option (List ℕ)) :=
  collectWalkAux ops m (ops.halfedge m f) fuel (ops.halfedge m f)

/-- Outcome of the planning phase for one face. -/
inductive PlanResult where
  | skip : PlanResult
  | fatal : PlanResult
  | planned : List ℕ → List ℕ → Tables → PlanResult

/-- Planning phase of `triangulate(Face, Objective)`: collect the boundary
(skipping non-manifold faces), skip faces with at most 3 boundary vertices,
otherwise build the DP tables (`fatal` models the `exit(1)` on an
unrecognized objective). -/
def planFace (ops : MeshOps M) (nrm : Point → Point) (fuel : ℕ) (m : M)
    (f obj : ℕ) : Option PlanResult :=
  match collectWalk ops m f fuel with
  | none => none
  | some none => some PlanResult.skip
  | some (some hs) =>
    if hs.length ≤ 3 then some PlanResult.skip
    else
      match buildTables hs.length obj
          (compute_weight ops nrm m (hs.map (ops.to_vertex m)) obj) with
      | none => some PlanResult.fatal
      | some T => some (PlanResult.planned hs (hs.map (ops.to_vertex m)) T)

/-- Per-face triangulation (`SurfaceTriangulation::triangulate(Face,
Objective)`): plan, then commit the split table by the stack-driven
traversal; a skipped face leaves the mesh unchanged, a fatal plan aborts
(`none`). -/
def triangulate1 (ops : MeshOps M) (nrm : Point → Point) (fuel : ℕ) (m : M)
    (f obj : ℕ) : Option M :=
  match planFace ops nrm fuel m f obj with
  | none => none
  | some PlanResult.skip => some m
  | some PlanResult.fatal => none
  | some (PlanResult.planned hs vs T) =>
    commitLoop hs.length
      (fun mm a b => (insert_edge ops fuel hs vs mm a b).map Prod.fst)
      T.index fuel m [(0, (hs.length : ℤ) - 1)]

/-- Triangulate every face of the given snapshot of the mesh's face list
(`SurfaceTriangulation::triangulate(Objective)`). -/
def triangulateAll (ops : MeshOps M) (nrm : Point → Point) (fuel : ℕ)
    (m : M) (fs : List ℕ) (obj : ℕ) : Option M :=
  fs.foldlM (fun mm f => triangulate1 ops nrm fuel mm f obj) m

/-! ### Bridging the monadic DP construction with its pure version -/

theorem combine_eq_some {obj : ℕ} (hobj : obj = MIN_AREA ∨ obj = MAX_ANGLE)
    (a b c : Scalar) : combine obj a b c = some (combineP obj a b c) := by
  rcases hobj with h | h <;> subst h <;>
    simp [combine, combineP, MIN_AREA, MAX_ANGLE]

theorem foldlM_option_some {α β : Type} (g : β → α → β) :
    ∀ (l : List α) (b : β),
      (List.foldlM (fun x y => some (g x y)) b l : Option β) =
        some (List.foldl g b l) := by
  intro l
  induction l with
  | nil => intro b; rfl
  | cons a l ih => intro b; simp only [List.foldlM_cons, List.foldl_cons,
      Option.bind_some, Option.pure_def, Option.bind_eq_bind]; exact ih (g b a)

theorem scanSplit_eq {obj : ℕ} (hobj : obj = MIN_AREA ∨ obj = MAX_ANGLE)
    (W : ℕ → ℕ → Scalar) (cw : ℕ → ℕ → ℕ → Scalar) (i k : ℕ) :
    scanSplit obj W cw i k = some (scanSplitP obj W cw i k) := by
  unfold scanSplit scanSplitP
  have hf : (fun (p : Scalar × ℤ) (m : ℕ) =>
        (combine obj (W i m) (W m k) (cw i m k)).map
          (fun w => if w < p.1 then (w, (m : ℤ)) else p)) =
      fun p m =>
        some (argminStep (fun m => combineP obj (W i m) (W m k) (cw i m k)) p m) := by
    funext p m
    rw [combine_eq_some hobj]
    rfl
  rw [hf, foldlM_option_some]

theorem dpStep_eq {obj : ℕ} (hobj : obj = MIN_AREA ∨ obj = MAX_ANGLE)
    (cw : ℕ → ℕ → ℕ → Scalar) (T : Tables) (i k : ℕ) :
    dpStep obj cw T i k = some (dpStepP obj cw T i k) := by
  unfold dpStep dpStepP
  rw [scanSplit_eq hobj]
  rfl

theorem buildTables_eq {obj : ℕ} (hobj : obj = MIN_AREA ∨ obj = MAX_ANGLE)
    (n : ℕ) (cw : ℕ → ℕ → ℕ → Scalar) :
    buildTables n obj cw = some (buildTablesP n obj cw) := by
  unfold buildTables buildTablesP roundsFold
  have hstep : (fun (T : Tables) (j : ℕ) =>
        ((List.range (n - j)).foldlM
          (fun T' i => dpStep obj cw T' i (i + j)) T : Option Tables)) =
      fun T j => some (dpRound n obj cw T j) := by
    funext T j
    have hf : (fun (T' : Tables) (i : ℕ) => dpStep obj cw T' i (i + j)) =
        fun T' i => some (dpStepP obj cw T' i (i + j)) := by
      funext T' i
      exact dpStep_eq hobj cw T' i (i + j)
    rw [hf, foldlM_option_some]
    rfl
  rw [hstep, foldlM_option_some]

theorem buildTables_fatal {obj : ℕ} (h0 : obj ≠ MIN_AREA) (h1 : obj ≠ MAX_ANGLE)
    {n : ℕ} (hn : 4 ≤ n) (cw : ℕ → ℕ → ℕ → Scalar) :
    buildTables n obj cw = none := by
  have hstep0 : dpStep obj cw (initTables n) 0 (0 + 2) = none := by
    have hr : (2 : ℕ) - 0 - 1 = 1 := rfl
    unfold dpStep scanSplit
    rw [hr]
    have h11 : List.range' (0 + 1) 1 = [0 + 1] := rfl
    rw [h11]
    simp only [MIN_AREA] at h0
    simp only [MAX_ANGLE] at h1
    simp [combine, MIN_AREA, MAX_ANGLE, h0, h1]
  have hinner : ((List.range (n - 2)).foldlM
      (fun T' i => dpStep obj cw T' i (i + 2)) (initTables n) : Option Tables) =
      none := by
    obtain ⟨q, hq⟩ : ∃ q, n - 2 = q + 1 := ⟨n - 3, by omega⟩
    rw [hq, List.range_eq_range', List.range'_succ, List.foldlM_cons, hstep0]
    rfl
  unfold buildTables
  obtain ⟨p, hp⟩ : ∃ p, n - 2 = p + 1 := ⟨n - 3, by omega⟩
  rw [hp, List.range'_succ, List.foldlM_cons]
  have h2 : (2 : ℕ) = n - (n - 2) := by omega
  rw [show ((List.range (n - 2)).foldlM
      (fun T' i => dpStep obj cw T' i (i + 2)) (initTables n) : Option Tables) =
      none from hinner]
  rfl

/-! ### The inner argmin scan -/

theorem mem_cand {i k m : ℕ} :
    m ∈ List.range' (i + 1) (k - i - 1) ↔ (i < m ∧ m < k) := by
  rw [List.mem_range'_1]
  omega

theorem argmin_fold_spec (f : ℕ → Scalar) :
    ∀ (l : List ℕ), l.Pairwise (· < ·) → ∀ p : Scalar × ℤ,
      (∀ m ∈ l, (List.foldl (argminStep f) p l).1 ≤ f m) ∧
      (List.foldl (argminStep f) p l).1 ≤ p.1 ∧
      ((List.foldl (argminStep f) p l) = p ∧ (∀ m ∈ l, p.1 ≤ f m) ∨
        ∃ m ∈ l, (List.foldl (argminStep f) p l).2 = (m : ℤ) ∧
          (List.foldl (argminStep f) p l).1 = f m ∧ f m < p.1 ∧
          ∀ m' ∈ l, m' < m → (List.foldl (argminStep f) p l).1 < f m') := by
  intro l
  induction l with
  | nil =>
    intro _ p
    exact ⟨by simp, le_refl _, Or.inl ⟨rfl, by simp⟩⟩
  | cons a l ih =>
    intro hpw p
    rw [List.pairwise_cons] at hpw
    obtain ⟨ha, hpl⟩ := hpw
    rw [List.foldl_cons]
    by_cases hfa : f a < p.1
    · have hstep : argminStep f p a = (f a, (a : ℤ)) := by
        rw [argminStep, if_pos hfa]
      rw [hstep]
      obtain ⟨ih1, ih2, ih3⟩ := ih hpl (f a, (a : ℤ))
      refine ⟨?_, ?_, ?_⟩
      · intro m hm
        rcases List.mem_cons.mp hm with rfl | hm
        · exact ih2
        · exact ih1 m hm
      · exact le_trans ih2 (le_of_lt hfa)
      · rcases ih3 with ⟨heq, _⟩ | ⟨m₁, hm₁, hidx, hval, hlt, hmin⟩
        · refine Or.inr ⟨a, List.mem_cons_self a l, ?_, ?_, hfa, ?_⟩
          · rw [heq]
          · rw [heq]
          · intro m' hm' hlt'
            rcases List.mem_cons.mp hm' with rfl | hm'
            · omega
            · exact absurd (ha m' hm') (by omega)
        · refine Or.inr ⟨m₁, List.mem_cons_of_mem a hm₁, hidx, hval,
            lt_trans hlt hfa, ?_⟩
          intro m' hm' hm'lt
          rcases List.mem_cons.mp hm' with rfl | hm'
          · exact lt_of_le_of_lt (le_of_eq hval) hlt
          · exact hmin m' hm' hm'lt
    · have hstep : argminStep f p a = p := by
        rw [argminStep, if_neg hfa]
      rw [hstep]
      obtain ⟨ih1, ih2, ih3⟩ := ih hpl p
      refine ⟨?_, ih2, ?_⟩
      · intro m hm
        rcases List.mem_cons.mp hm with rfl | hm
        · exact le_trans ih2 (not_lt.mp hfa)
        · exact ih1 m hm
      · rcases ih3 with ⟨heq, hall⟩ | ⟨m₁, hm₁, hidx, hval, hlt, hmin⟩
        · refine Or.inl ⟨heq, ?_⟩
          intro m hm
          rcases List.mem_cons.mp hm with rfl | hm
          · exact not_lt.mp hfa
          · exact hall m hm
        · refine Or.inr ⟨m₁, List.mem_cons_of_mem a hm₁, hidx, hval, hlt, ?_⟩
          intro m' hm' hm'lt
          rcases List.mem_cons.mp hm' with rfl | hm'
          · exact lt_of_lt_of_le (lt_of_le_of_lt (le_of_eq hval) hlt)
              (not_lt.mp hfa)
          · exact hmin m' hm' hm'lt

theorem cand_pairwise (i c : ℕ) : (List.range' i c).Pairwise (· < ·) :=
  List.pairwise_lt_range' i c 1 (by norm_num)

theorem scanSplitP_le (obj : ℕ) (W : ℕ → ℕ → Scalar) (cw : ℕ → ℕ → ℕ → Scalar)
    (i k m : ℕ) (hm : i < m) (hmk : m < k) :
    (scanSplitP obj W cw i k).1 ≤ combineP obj (W i m) (W m k) (cw i m k) :=
  (argmin_fold_spec _ _ (cand_pairwise _ _) _).1 m (mem_cand.mpr ⟨hm, hmk⟩)

theorem scanSplitP_attained (obj : ℕ) (W : ℕ → ℕ → Scalar)
    (cw : ℕ → ℕ → ℕ → Scalar) (i k : ℕ) (h2 : i + 2 ≤ k) :
    ∃ m, i < m ∧ m < k ∧
      (scanSplitP obj W cw i k).1 = combineP obj (W i m) (W m k) (cw i m k) := by
  obtain ⟨_, _, h3⟩ := argmin_fold_spec
    (fun m => combineP obj (W i m) (W m k) (cw i m k))
    (List.range' (i + 1) (k - i - 1)) (cand_pairwise _ _) ((⊤ : Scalar), (-1 : ℤ))
  rcases h3 with ⟨heq, hall⟩ | ⟨m, hm, _, hval, _, _⟩
  · have hmem : i + 1 ∈ List.range' (i + 1) (k - i - 1) :=
      mem_cand.mpr ⟨by omega, by omega⟩
    have htop : combineP obj (W i (i + 1)) (W (i + 1) k) (cw i (i + 1) k) = ⊤ :=
      top_le_iff.mp (hall (i + 1) hmem)
    refine ⟨i + 1, by omega, by omega, ?_⟩
    rw [scanSplitP, heq, htop]
  · exact ⟨m, (mem_cand.mp hm).1, (mem_cand.mp hm).2, hval⟩

theorem scanSplitP_argmin (obj : ℕ) (W : ℕ → ℕ → Scalar)
    (cw : ℕ → ℕ → ℕ → Scalar) (i k : ℕ)
    (hex : ∃ m, i < m ∧ m < k ∧
      combineP obj (W i m) (W m k) (cw i m k) < ⊤) :
    ∃ m₀ : ℕ, (scanSplitP obj W cw i k).2 = (m₀ : ℤ) ∧ i < m₀ ∧ m₀ < k ∧
      (scanSplitP obj W cw i k).1 =
        combineP obj (W i m₀) (W m₀ k) (cw i m₀ k) ∧
      (∀ m, i < m → m < m₀ →
        (scanSplitP obj W cw i k).1 <
          combineP obj (W i m) (W m k) (cw i m k)) := by
  obtain ⟨_, _, h3⟩ := argmin_fold_spec
    (fun m => combineP obj (W i m) (W m k) (cw i m k))
    (List.range' (i + 1) (k - i - 1)) (cand_pairwise _ _) ((⊤ : Scalar), (-1 : ℤ))
  rcases h3 with ⟨_, hall⟩ | ⟨m₀, hm₀, hidx, hval, _, hmin⟩
  · obtain ⟨m, hm1, hm2, hmlt⟩ := hex
    exact absurd (hall m (mem_cand.mpr ⟨hm1, hm2⟩)) (not_le_of_lt hmlt)
  · obtain ⟨hm₀1, hm₀2⟩ := mem_cand.mp hm₀
    refine ⟨m₀, hidx, hm₀1, hm₀2, hval, ?_⟩
    intro m hm1 hm2
    exact hmin m (mem_cand.mpr ⟨hm1, by omega⟩) hm2

theorem scanSplitP_sentinel (obj : ℕ) (W : ℕ → ℕ → Scalar)
    (cw : ℕ → ℕ → ℕ → Scalar) (i k : ℕ)
    (hall : ∀ m, i < m → m < k →
      combineP obj (W i m) (W m k) (cw i m k) = ⊤) :
    (scanSplitP obj W cw i k).2 = -1 := by
  obtain ⟨_, _, h3⟩ := argmin_fold_spec
    (fun m => combineP obj (W i m) (W m k) (cw i m k))
    (List.range' (i + 1) (k - i - 1)) (cand_pairwise _ _) ((⊤ : Scalar), (-1 : ℤ))
  rcases h3 with ⟨heq, _⟩ | ⟨m, hm, _, _, hlt, _⟩
  · rw [scanSplitP, heq]
  · obtain ⟨hm1, hm2⟩ := mem_cand.mp hm
    exact absurd hlt (by rw [hall m hm1 hm2]; exact lt_irrefl _)

/-! ### Cells of the DP tables: each cell is written once, in span order -/

theorem dpStepP_weight (obj : ℕ) (cw : ℕ → ℕ → ℕ → Scalar) (T : Tables)
    (i k a b : ℕ) :
    (dpStepP obj cw T i k).weight a b =
      if a = i ∧ b = k then (scanSplitP obj T.weight cw i k).1
      else T.weight a b := rfl

theorem dpStepP_index (obj : ℕ) (cw : ℕ → ℕ → ℕ → Scalar) (T : Tables)
    (i k a b : ℕ) :
    (dpStepP obj cw T i k).index a b =
      if a = i ∧ b = k then (scanSplitP obj T.weight cw i k).2
      else T.index a b := rfl

theorem roundFold_cons (obj : ℕ) (cw : ℕ → ℕ → ℕ → Scalar) (j i : ℕ)
    (l : List ℕ) (T : Tables) :
    roundFold obj cw j (i :: l) T =
      roundFold obj cw j l (dpStepP obj cw T i (i + j)) := rfl

theorem roundFold_frame (obj : ℕ) (cw : ℕ → ℕ → ℕ → Scalar) (j : ℕ) :
    ∀ (l : List ℕ) (T : Tables) (a b : ℕ),
      (∀ i ∈ l, ¬(a = i ∧ b = i + j)) →
      (roundFold obj cw j l T).weight a b = T.weight a b ∧
      (roundFold obj cw j l T).index a b = T.index a b := by
  intro l
  induction l with
  | nil => intro T a b _; exact ⟨rfl, rfl⟩
  | cons i l ih =>
    intro T a b h
    rw [roundFold_cons]
    obtain ⟨hw, hx⟩ := ih (dpStepP obj cw T i (i + j)) a b
      (fun i' hi' => h i' (List.mem_cons_of_mem _ hi'))
    rw [hw, hx, dpStepP_weight, dpStepP_index,
      if_neg (h i (List.mem_cons_self _ _)), if_neg (h i (List.mem_cons_self _ _))]
    exact ⟨rfl, rfl⟩

theorem foldl_argmin_congr (f f' : ℕ → Scalar) :
    ∀ (l : List ℕ) (p : Scalar × ℤ), (∀ m ∈ l, f m = f' m) →
      List.foldl (argminStep f) p l = List.foldl (argminStep f') p l := by
  intro l
  induction l with
  | nil => intro p _; rfl
  | cons a l ih =>
    intro p h
    rw [List.foldl_cons, List.foldl_cons]
    have ha := h a (List.mem_cons_self _ _)
    have hst : argminStep f p a = argminStep f' p a := by
      rw [argminStep, argminStep, ha]
    rw [hst]
    exact ih _ (fun m hm => h m (List.mem_cons_of_mem _ hm))

theorem scanSplitP_congr (obj : ℕ) (cw : ℕ → ℕ → ℕ → Scalar) (i k : ℕ)
    (W W' : ℕ → ℕ → Scalar)
    (h : ∀ m, i < m → m < k → W i m = W' i m ∧ W m k = W' m k) :
    scanSplitP obj W cw i k = scanSplitP obj W' cw i k := by
  unfold scanSplitP
  apply foldl_argmin_congr
  intro m hm
  obtain ⟨h1, h2⟩ := mem_cand.mp hm
  rw [combineP, combineP, (h m h1 h2).1, (h m h1 h2).2]

theorem roundFold_writes (obj : ℕ) (cw : ℕ → ℕ → ℕ → Scalar) (j : ℕ) :
    ∀ (l : List ℕ), l.Nodup → ∀ (T : Tables) (a : ℕ), a ∈ l →
      (roundFold obj cw j l T).weight a (a + j) =
        (scanSplitP obj (roundFold obj cw j l T).weight cw a (a + j)).1 ∧
      (roundFold obj cw j l T).index a (a + j) =
        (scanSplitP obj (roundFold obj cw j l T).weight cw a (a + j)).2 := by
  intro l
  induction l with
  | nil => intro _ T a ha; exact absurd ha (List.not_mem_nil a)
  | cons i l ih =>
    intro hnd T a ha
    rw [List.nodup_cons] at hnd
    obtain ⟨hni, hnd⟩ := hnd
    rw [roundFold_cons]
    rcases List.mem_cons.mp ha with rfl | ha
    · have hfr := roundFold_frame obj cw j l (dpStepP obj cw T a (a + j)) a (a + j)
        (by
          intro i' hi' hc
          exact hni (hc.1 ▸ hi'))
      have hT₁w : (dpStepP obj cw T a (a + j)).weight a (a + j) =
          (scanSplitP obj T.weight cw a (a + j)).1 := by
        rw [dpStepP_weight, if_pos ⟨rfl, rfl⟩]
      have hT₁x : (dpStepP obj cw T a (a + j)).index a (a + j) =
          (scanSplitP obj T.weight cw a (a + j)).2 := by
        rw [dpStepP_index, if_pos ⟨rfl, rfl⟩]
      have hsc : scanSplitP obj T.weight cw a (a + j) =
          scanSplitP obj
            (roundFold obj cw j l (dpStepP obj cw T a (a + j))).weight cw
            a (a + j) := by
        apply scanSplitP_congr
        intro m hm1 hm2
        constructor
        · have e1 : (dpStepP obj cw T a (a + j)).weight a m = T.weight a m := by
            rw [dpStepP_weight, if_neg]
            intro hc
            omega
          have e2 := (roundFold_frame obj cw j l (dpStepP obj cw T a (a + j)) a m
            (by
              intro i' hi' hc
              obtain ⟨hc1, hc2⟩ := hc
              subst hc1
              omega)).1
          rw [e2, e1]
        · have e1 : (dpStepP obj cw T a (a + j)).weight m (a + j) =
              T.weight m (a + j) := by
            rw [dpStepP_weight, if_neg]
            intro hc
            omega
          have e2 := (roundFold_frame obj cw j l (dpStepP obj cw T a (a + j)) m (a + j)
            (by
              intro i' hi' hc
              obtain ⟨hc1, hc2⟩ := hc
              subst hc1
              omega)).1
          rw [e2, e1]
      rw [hfr.1, hfr.2, hT₁w, hT₁x, hsc]
      exact ⟨rfl, rfl⟩
    · exact ih hnd (dpStepP obj cw T i (i + j)) a ha

theorem roundsFold_cons (n obj : ℕ) (cw : ℕ → ℕ → ℕ → Scalar) (j : ℕ)
    (js : List ℕ) (T : Tables) :
    roundsFold n obj cw (j :: js) T =
      roundsFold n obj cw js (dpRound n obj cw T j) := rfl

theorem dpRound_frame (n obj : ℕ) (cw : ℕ → ℕ → ℕ → Scalar) (T : Tables)
    (j a b : ℕ) (h : ¬(b = a + j ∧ a < n - j)) :
    (dpRound n obj cw T j).weight a b = T.weight a b ∧
    (dpRound n obj cw T j).index a b = T.index a b := by
  apply roundFold_frame
  intro i hi hc
  obtain ⟨hc1, hc2⟩ := hc
  subst hc1
  exact h ⟨hc2, List.mem_range.mp hi⟩

theorem roundsFold_frame (n obj : ℕ) (cw : ℕ → ℕ → ℕ → Scalar) :
    ∀ (js : List ℕ) (T : Tables) (a b : ℕ),
      (∀ j ∈ js, ¬(b = a + j ∧ a < n - j)) →
      (roundsFold n obj cw js T).weight a b = T.weight a b ∧
      (roundsFold n obj cw js T).index a b = T.index a b := by
  intro js
  induction js with
  | nil => intro T a b _; exact ⟨rfl, rfl⟩
  | cons j js ih =>
    intro T a b h
    rw [roundsFold_cons]
    obtain ⟨hw, hx⟩ := ih (dpRound n obj cw T j) a b
      (fun j' hj' => h j' (List.mem_cons_of_mem _ hj'))
    obtain ⟨hw', hx'⟩ := dpRound_frame n obj cw T j a b
      (h j (List.mem_cons_self _ _))
    rw [hw, hx, hw', hx']
    exact ⟨rfl, rfl⟩

theorem roundsFold_writes (n obj : ℕ) (cw : ℕ → ℕ → ℕ → Scalar) :
    ∀ (js : List ℕ), js.Pairwise (· < ·) → ∀ (T : Tables), ∀ j ∈ js,
      ∀ a, a < n - j →
        (roundsFold n obj cw js T).weight a (a + j) =
          (scanSplitP obj (roundsFold n obj cw js T).weight cw a (a + j)).1 ∧
        (roundsFold n obj cw js T).index a (a + j) =
          (scanSplitP obj (roundsFold n obj cw js T).weight cw a (a + j)).2 := by
  intro js
  induction js with
  | nil => intro _ T j hj; exact absurd hj (List.not_mem_nil j)
  | cons j' js ih =>
    intro hpw T j hj a ha
    rw [List.pairwise_cons] at hpw
    obtain ⟨hgt, hpw⟩ := hpw
    rw [roundsFold_cons]
    rcases List.mem_cons.mp hj with rfl | hj
    · have hfr := roundsFold_frame n obj cw js (dpRound n obj cw T j) a (a + j)
        (by
          intro j'' hj'' hc
          have := hgt j'' hj''
          omega)
      have hT₁ := roundFold_writes obj cw j (List.range (n - j))
        (List.nodup_range (n - j)) T a (List.mem_range.mpr ha)
      have hsc : scanSplitP obj (dpRound n obj cw T j).weight cw a (a + j) =
          scanSplitP obj
            (roundsFold n obj cw js (dpRound n obj cw T j)).weight cw
            a (a + j) := by
        apply scanSplitP_congr
        intro m hm1 hm2
        constructor
        · exact (roundsFold_frame n obj cw js (dpRound n obj cw T j) a m
            (by
              intro j'' hj'' hc
              have := hgt j'' hj''
              omega)).1.symm
        · exact (roundsFold_frame n obj cw js (dpRound n obj cw T j) m (a + j)
            (by
              intro j'' hj'' hc
              have := hgt j'' hj''
              omega)).1.symm
      refine ⟨?_, ?_⟩
      · rw [hfr.1, ← hsc]
        exact hT₁.1
      · rw [hfr.2, ← hsc]
        exact hT₁.2
    · exact ih hpw (dpRound n obj cw T j') j hj a ha

theorem buildTablesP_base (n obj : ℕ) (cw : ℕ → ℕ → ℕ → Scalar) (i : ℕ)
    (hi : i < n - 1) :
    (buildTablesP n obj cw).weight i (i + 1) = 0 ∧
    (buildTablesP n obj cw).index i (i + 1) = -1 := by
  unfold buildTablesP
  obtain ⟨hw, hx⟩ := roundsFold_frame n obj cw (List.range' 2 (n - 2))
    (initTables n) i (i + 1)
    (by
      intro j hj hc
      have := List.mem_range'_1.mp hj
      omega)
  rw [hw, hx]
  unfold initTables
  simp [hi]

theorem buildTablesP_rec (n obj : ℕ) (cw : ℕ → ℕ → ℕ → Scalar) (i k : ℕ)
    (h2 : i + 2 ≤ k) (hk : k ≤ n - 1) :
    (buildTablesP n obj cw).weight i k =
      (scanSplitP obj (buildTablesP n obj cw).weight cw i k).1 ∧
    (buildTablesP n obj cw).index i k =
      (scanSplitP obj (buildTablesP n obj cw).weight cw i k).2 := by
  have hn3 : 3 ≤ n := by omega
  have hj : k - i ∈ List.range' 2 (n - 2) := List.mem_range'_1.mpr
    ⟨by omega, by omega⟩
  have ha : i < n - (k - i) := by omega
  have := roundsFold_writes n obj cw (List.range' 2 (n - 2))
    (cand_pairwise 2 (n - 2)) (initTables n) (k - i) hj i ha
  rw [show i + (k - i) = k from by omega] at this
  exact this

/-! ### Claim C1: the cost-table recurrence -/

/-- C1: for a face planned with `n` boundary vertices, the cost table
satisfies the stated recurrence: adjacent pairs cost `0` with split `-1`
("none"), and every longer range's cost is the minimum over interior
candidates of the additive combination (area objective), respectively the
max combination (angle objective), of the sub-range costs and the triangle
weight. -/
theorem dp_cost_recurrence (n obj : ℕ) (cw : ℕ → ℕ → ℕ → Scalar) (T : Tables)
    (hobj : obj = MIN_AREA ∨ obj = MAX_ANGLE)
    (hT : buildTables n obj cw = some T) :
    (∀ i, i < n - 1 → T.weight i (i + 1) = 0 ∧ T.index i (i + 1) = -1) ∧
    (∀ i k, i + 2 ≤ k → k ≤ n - 1 →
      (obj = MIN_AREA →
        (∀ m, i < m → m < k →
          T.weight i k ≤ T.weight i m + cw i m k + T.weight m k) ∧
        (∃ m, i < m ∧ m < k ∧
          T.weight i k = T.weight i m + cw i m k + T.weight m k)) ∧
      (obj = MAX_ANGLE →
        (∀ m, i < m → m < k →
          T.weight i k ≤ max (T.weight i m) (max (cw i m k) (T.weight m k))) ∧
        (∃ m, i < m ∧ m < k ∧
          T.weight i k = max (T.weight i m) (max (cw i m k) (T.weight m k))))) := by
  have hps := buildTables_eq hobj n cw
  rw [hT] at hps
  obtain rfl : T = buildTablesP n obj cw := Option.some.inj hps
  constructor
  · intro i hi
    exact buildTablesP_base n obj cw i hi
  · intro i k h2 hk
    obtain ⟨hw, _⟩ := buildTablesP_rec n obj cw i k h2 hk
    constructor
    · intro hoa
      subst hoa
      constructor
      · intro m hm1 hm2
        have hle := scanSplitP_le MIN_AREA (buildTablesP n MIN_AREA cw).weight
          cw i k m hm1 hm2
        rw [← hw] at hle
        exact hle
      · obtain ⟨m, hm1, hm2, hval⟩ := scanSplitP_attained MIN_AREA
          (buildTablesP n MIN_AREA cw).weight cw i k h2
        refine ⟨m, hm1, hm2, ?_⟩
        rw [hw, hval]
        rfl
    · intro hoa
      subst hoa
      constructor
      · intro m hm1 hm2
        have hle := scanSplitP_le MAX_ANGLE (buildTablesP n MAX_ANGLE cw).weight
          cw i k m hm1 hm2
        rw [← hw] at hle
        exact hle
      · obtain ⟨m, hm1, hm2, hval⟩ := scanSplitP_attained MAX_ANGLE
          (buildTablesP n MAX_ANGLE cw).weight cw i k h2
        refine ⟨m, hm1, hm2, ?_⟩
        rw [hw, hval]
        rfl

/-! ### Concrete mesh instances used by witnesses and counterexamples -/

/-- A quad face all of whose vertex pairs are already connected by some mesh
edge (`find_halfedge` always succeeds), so the validity gate fires for every
candidate triangle.  Boundary half-edges `0,1,2,3` cycle; `to_vertex h`
is `(h+1) % 4`. -/
def meshOpsQ : MeshOps Unit :=
  { halfedge := fun _ _ => 0
    next_halfedge := fun _ h => (h + 1) % 4
    to_vertex := fun _ h => (h + 1) % 4
    find_halfedge := fun _ _ _ => some 0
    is_manifold := fun _ _ => true
    insert_edge := fun _ _ _ => ()
    point := fun _ _ => ⟨0, 0, 0⟩ }

/-- Weight function of the degenerate quad under the angle objective. -/
def cwQ : ℕ → ℕ → ℕ → Scalar :=
  compute_weight meshOpsQ id () [1, 2, 3, 0] MAX_ANGLE

/-- The planner's tables for the degenerate quad under the angle
objective. -/
def TQ : Tables :=
  match buildTables 4 MAX_ANGLE cwQ with
  | some T => T
  | none => initTables 0

/-- A unit-square quad face with no preexisting interior connectivity
(`find_halfedge` never succeeds). -/
def meshOpsG : MeshOps Unit :=
  { halfedge := fun _ _ => 0
    next_halfedge := fun _ h => (h + 1) % 4
    to_vertex := fun _ h => (h + 1) % 4
    find_halfedge := fun _ _ _ => none
    is_manifold := fun _ _ => true
    insert_edge := fun _ _ _ => ()
    point := fun _ v =>
      if v = 0 then ⟨0, 0, 0⟩
      else if v = 1 then ⟨1, 0, 0⟩
      else if v = 2 then ⟨1, 1, 0⟩
      else ⟨0, 1, 0⟩ }

/-- Weight function of the unit-square quad under the area objective. -/
def cwG : ℕ → ℕ → ℕ → Scalar :=
  compute_weight meshOpsG id () [1, 2, 3, 0] MIN_AREA

/-- The planner's tables for the unit-square quad under the area
objective. -/
def TG : Tables :=
  match buildTables 4 MIN_AREA cwG with
  | some T => T
  | none => initTables 0

/-- Witness for C1 at the unit-square quad: the base-case cells of the
computed tables. -/
theorem dp_cost_recurrence_witness : TG.weight 0 1 = 0 ∧ TG.index 0 1 = -1 :=
  (dp_cost_recurrence 4 MIN_AREA cwG TG (Or.inl rfl) rfl).1 0 (by decide)

/-! ### Claim C4: determinism and the split tie-break -/

theorem tables_argmin (n obj : ℕ) (cw : ℕ → ℕ → ℕ → Scalar) (T : Tables)
    (hobj : obj = MIN_AREA ∨ obj = MAX_ANGLE)
    (hT : buildTables n obj cw = some T) (i k : ℕ)
    (h2 : i + 2 ≤ k) (hk : k ≤ n - 1)
    (hex : ∃ m, i < m ∧ m < k ∧
      combineP obj (T.weight i m) (T.weight m k) (cw i m k) < ⊤) :
    ∃ m₀ : ℕ, T.index i k = (m₀ : ℤ) ∧ i < m₀ ∧ m₀ < k ∧
      combineP obj (T.weight i m₀) (T.weight m₀ k) (cw i m₀ k) =
        T.weight i k ∧
      (∀ m, i < m → m < k →
        T.weight i k ≤ combineP obj (T.weight i m) (T.weight m k) (cw i m k)) ∧
      (∀ m, i < m → m < m₀ →
        T.weight i k < combineP obj (T.weight i m) (T.weight m k) (cw i m k)) := by
  have hps := buildTables_eq hobj n cw
  rw [hT] at hps
  obtain rfl : T = buildTablesP n obj cw := Option.some.inj hps
  obtain ⟨hw, hx⟩ := buildTablesP_rec n obj cw i k h2 hk
  obtain ⟨m₀, hm₀x, hm₀1, hm₀2, hm₀v, hm₀min⟩ := scanSplitP_argmin obj
    (buildTablesP n obj cw).weight cw i k hex
  refine ⟨m₀, by rw [hx, hm₀x], hm₀1, hm₀2, by rw [hw, hm₀v], ?_, ?_⟩
  · intro m hm1 hm2
    rw [hw]
    exact scanSplitP_le obj (buildTablesP n obj cw).weight cw i k m hm1 hm2
  · intro m hm1 hm2
    rw [hw]
    exact hm₀min m hm1 hm2

theorem tables_sentinel (n obj : ℕ) (cw : ℕ → ℕ → ℕ → Scalar) (T : Tables)
    (hobj : obj = MIN_AREA ∨ obj = MAX_ANGLE)
    (hT : buildTables n obj cw = some T) (i k : ℕ)
    (h2 : i + 2 ≤ k) (hk : k ≤ n - 1)
    (hall : ∀ m, i < m → m < k →
      combineP obj (T.weight i m) (T.weight m k) (cw i m k) = ⊤) :
    T.index i k = -1 := by
  have hps := buildTables_eq hobj n cw
  rw [hT] at hps
  obtain rfl : T = buildTablesP n obj cw := Option.some.inj hps
  obtain ⟨_, hx⟩ := buildTablesP_rec n obj cw i k h2 hk
  rw [hx]
  exact scanSplitP_sentinel obj (buildTablesP n obj cw).weight cw i k hall

/-- C4 (amended): planning is deterministic, and for every range in which at
least one candidate's combined cost is strictly below the maximum, the
recorded split is the lowest candidate index attaining the minimal combined
cost; when every candidate's combined cost equals the maximum, the sentinel
`-1` is recorded instead. -/
theorem dp_split_tiebreak (n obj : ℕ) (cw : ℕ → ℕ → ℕ → Scalar) (T : Tables)
    (hobj : obj = MIN_AREA ∨ obj = MAX_ANGLE)
    (hT : buildTables n obj cw = some T) :
    (∀ T', buildTables n obj cw = some T' → T' = T) ∧
    (∀ i k, i + 2 ≤ k → k ≤ n - 1 →
      ((∃ m, i < m ∧ m < k ∧
          combineP obj (T.weight i m) (T.weight m k) (cw i m k) < ⊤) →
        ∃ m₀ : ℕ, T.index i k = (m₀ : ℤ) ∧ i < m₀ ∧ m₀ < k ∧
          combineP obj (T.weight i m₀) (T.weight m₀ k) (cw i m₀ k) =
            T.weight i k ∧
          (∀ m, i < m → m < k →
            T.weight i k ≤
              combineP obj (T.weight i m) (T.weight m k) (cw i m k)) ∧
          (∀ m, i < m → m < m₀ →
            T.weight i k <
              combineP obj (T.weight i m) (T.weight m k) (cw i m k))) ∧
      ((∀ m, i < m → m < k →
          combineP obj (T.weight i m) (T.weight m k) (cw i m k) = ⊤) →
        T.index i k = -1)) := by
  constructor
  · intro T' hT'
    rw [hT] at hT'
    exact (Option.some.inj hT').symm
  · intro i k h2 hk
    exact ⟨tables_argmin n obj cw T hobj hT i k h2 hk,
      tables_sentinel n obj cw T hobj hT i k h2 hk⟩

/-- C4 counterexample: on the degenerate quad under the angle objective,
for the range `(0, 2)` the only (hence lowest) interior candidate `m = 1`
attains the minimal combined cost, yet the recorded split is the sentinel
`-1`, not `1` — so the recorded split is *not* always the lowest candidate
attaining the minimum. -/
theorem dp_split_tiebreak_cex :
    buildTables 4 MAX_ANGLE cwQ = some TQ ∧
    TQ.weight 0 2 = combineP MAX_ANGLE (TQ.weight 0 1) (TQ.weight 1 2) (cwQ 0 1 2) ∧
    TQ.index 0 2 = -1 ∧ TQ.index 0 2 ≠ 1 :=
  ⟨rfl, by decide, by decide, by decide⟩

/-- Witness for the amended C4 at the unit-square quad: applying the
tie-break theorem to range `(0, 2)` produces an interior recorded split. -/
theorem dp_split_tiebreak_witness :
    ∃ m₀ : ℕ, TG.index 0 2 = (m₀ : ℤ) ∧ 0 < m₀ ∧ m₀ < 2 := by
  obtain ⟨m₀, h1, h2, h3, _⟩ :=
    ((dp_split_tiebreak 4 MIN_AREA cwG TG (Or.inl rfl) rfl).2 0 2
      (by decide) (by decide)).1 ⟨1, by decide, by decide, by decide⟩
  exact ⟨m₀, h1, h2, h3⟩

/-! ### The commit phase: termination and in-bounds indexing -/

theorem pow3_split (d1 d2 d : ℕ) (h1 : 1 ≤ d1) (h2 : 1 ≤ d2)
    (hd : d1 + d2 = d) : 3 ^ d1 + 3 ^ d2 < 3 ^ d := by
  have ha : 3 ^ d1 ≤ 3 ^ (d - 1) := Nat.pow_le_pow_right (by norm_num) (by omega)
  have hb : 3 ^ d2 ≤ 3 ^ (d - 1) := Nat.pow_le_pow_right (by norm_num) (by omega)
  have hpos : 0 < 3 ^ (d - 1) := pow_pos (by norm_num) _
  have hd3 : 3 * 3 ^ (d - 1) = 3 ^ d := by
    rw [← pow_succ']
    congr 1
    omega
  omega

theorem stackMeasure_cons (p : ℤ × ℤ) (st : List (ℤ × ℤ)) :
    stackMeasure (p :: st) = 3 ^ (p.2 - p.1).toNat + stackMeasure st := rfl

theorem commit_go {M : Type} (n : ℕ) (ins : M → ℤ → ℤ → Option M)
    (idx : ℕ → ℕ → ℤ)
    (hidx : ∀ s e : ℕ, e < n → s + 2 ≤ e →
      (s : ℤ) < idx s e ∧ idx s e < (e : ℤ))
    (hins : ∀ (m : M) (a b : ℤ), 0 ≤ a → a < (n : ℤ) → 0 ≤ b → b < (n : ℤ) →
      (ins m a b).isSome = true) :
    ∀ (fuel : ℕ) (st : List (ℤ × ℤ)) (m : M),
      (∀ p ∈ st, 0 ≤ p.1 ∧ p.1 < p.2 ∧ p.2 < (n : ℤ)) →
      stackMeasure st < fuel →
      ∃ m', commitLoop n ins idx fuel m st = some m' := by
  intro fuel
  induction fuel with
  | zero => intro st m _ hm; exact absurd hm (by omega)
  | succ fuel ih =>
    intro st m hst hm
    cases st with
    | nil => exact ⟨m, rfl⟩
    | cons p todo =>
      obtain ⟨s, e⟩ := p
      have hp := hst (s, e) (List.mem_cons_self _ _)
      have hmc : stackMeasure ((s, e) :: todo) =
          3 ^ (e - s).toNat + stackMeasure todo := rfl
      by_cases hse : e - s < 2
      · have hstep : commitLoop n ins idx (fuel + 1) m ((s, e) :: todo) =
            commitLoop n ins idx fuel m todo := by
          simp only [commitLoop]
          rw [if_pos hse]
        rw [hstep]
        apply ih todo m (fun q hq => hst q (List.mem_cons_of_mem _ hq))
        have hpos : 0 < 3 ^ ((e - s).toNat) := pow_pos (by norm_num) _
        omega
      · have hsn : 0 ≤ s ∧ e < (n : ℤ) := ⟨hp.1, hp.2.2⟩
        have hen : e.toNat < n := by omega
        have hsen : s.toNat + 2 ≤ e.toNat := by omega
        have hidxse := hidx s.toNat e.toNat hen hsen
        have hts : (s.toNat : ℤ) = s := Int.toNat_of_nonneg hp.1
        have hte : (e.toNat : ℤ) = e := Int.toNat_of_nonneg (by omega)
        rw [hts, hte] at hidxse
        have hins1 : (ins m s (idx s.toNat e.toNat)).isSome = true :=
          hins m s _ hp.1 (by omega) (by omega) (by omega)
        obtain ⟨m₁, hm₁⟩ := Option.isSome_iff_exists.mp hins1
        have hins2 : (ins m₁ (idx s.toNat e.toNat) e).isSome = true :=
          hins m₁ _ e (by omega) (by omega) (by omega) (by omega)
        obtain ⟨m₂, hm₂⟩ := Option.isSome_iff_exists.mp hins2
        have hstep : commitLoop n ins idx (fuel + 1) m ((s, e) :: todo) =
            commitLoop n ins idx fuel m₂
              ((idx s.toNat e.toNat, e) :: (s, idx s.toNat e.toNat) :: todo) := by
          simp only [commitLoop, if_neg hse, if_pos hsn, hm₁, hm₂]
        rw [hstep]
        apply ih _ m₂
        · intro q hq
          rcases List.mem_cons.mp hq with rfl | hq
          · exact ⟨by omega, by omega, by omega⟩
          rcases List.mem_cons.mp hq with rfl | hq
          · exact ⟨by omega, by omega, by omega⟩
          · exact hst q (List.mem_cons_of_mem _ hq)
        · have hp3 := pow3_split ((idx s.toNat e.toNat - s).toNat)
            ((e - idx s.toNat e.toNat).toNat) ((e - s).toNat)
            (by omega) (by omega) (by omega)
          have hmc2 : stackMeasure
              ((idx s.toNat e.toNat, e) :: (s, idx s.toNat e.toNat) :: todo) =
              3 ^ (e - idx s.toNat e.toNat).toNat +
                (3 ^ (idx s.toNat e.toNat - s).toNat + stackMeasure todo) := rfl
          omega

/-- C10: under the precondition that every split-table entry of a range with
span at least 2 lies strictly between the range's endpoints (and that each
requested edge insertion settles), the commit phase's stack-driven traversal
starting from `(0, n-1)` empties its stack within `3 ^ n` iterations. -/
theorem commit_traversal_terminates {M : Type} (n : ℕ) (hn : 2 ≤ n)
    (ins : M → ℤ → ℤ → Option M) (idx : ℕ → ℕ → ℤ)
    (hidx : ∀ s e : ℕ, e < n → s + 2 ≤ e →
      (s : ℤ) < idx s e ∧ idx s e < (e : ℤ))
    (hins : ∀ (m : M) (a b : ℤ), 0 ≤ a → a < (n : ℤ) → 0 ≤ b → b < (n : ℤ) →
      (ins m a b).isSome = true)
    (m : M) :
    ∃ m', commitLoop n ins idx (3 ^ n) m [(0, (n : ℤ) - 1)] = some m' := by
  apply commit_go n ins idx hidx hins (3 ^ n) _ m
  · intro p hp
    rw [List.mem_singleton] at hp
    subst hp
    exact ⟨le_refl _, by omega, by omega⟩
  · have h1 : stackMeasure [(0, (n : ℤ) - 1)] = 3 ^ (n - 1) := by
      rw [stackMeasure_cons]
      have : (((n : ℤ) - 1) - 0).toNat = n - 1 := by omega
      rw [this]
      rfl
    rw [h1]
    exact Nat.pow_lt_pow_right (by norm_num) (by omega)

/-- Witness for C10: a concrete table on a 4-gon whose splits are always
`start + 1`, with an insertion action that always succeeds. -/
theorem commit_traversal_terminates_witness :
    ∃ m', commitLoop 4 (fun (m : Unit) _ _ => some m)
      (fun s _ => (s : ℤ) + 1) (3 ^ 4) ()
      [(0, ((4 : ℕ) : ℤ) - 1)] = some m' :=
  commit_traversal_terminates 4 (by norm_num)
    (fun (m : Unit) _ _ => some m) (fun s _ => (s : ℤ) + 1)
    (fun s e _ h2 => ⟨by show (s : ℤ) < (s : ℤ) + 1; omega,
      by show (s : ℤ) + 1 < (e : ℤ); omega⟩)
    (fun _ _ _ _ _ _ _ => rfl) ()

/-! ### Claim C5: population of the split table and commit-phase bounds -/

theorem planFace_planned_inv {ops : MeshOps M} {nrm : Point → Point}
    {fuel : ℕ} {m : M} {f obj : ℕ} {hs vs : List ℕ} {T : Tables}
    (h : planFace ops nrm fuel m f obj = some (PlanResult.planned hs vs T)) :
    collectWalk ops m f fuel = some (some hs) ∧ 4 ≤ hs.length ∧
    vs = hs.map (ops.to_vertex m) ∧
    buildTables hs.length obj (compute_weight ops nrm m vs obj) = some T := by
  unfold planFace at h
  split at h
  · exact absurd h (by simp)
  · exact absurd h (by simp)
  · next hs' heq =>
    by_cases hlen : hs'.length ≤ 3
    · rw [if_pos hlen] at h
      exact absurd h (by simp)
    · rw [if_neg hlen] at h
      split at h
      · exact absurd h (by simp)
      · next T' hbt =>
        simp only [Option.some.injEq, PlanResult.planned.injEq] at h
        obtain ⟨h1, h2, h3⟩ := h
        subst h1
        subst h3
        exact ⟨heq, by omega, h2.symm, by rw [h2] at hbt; exact hbt⟩

/-- C5 (amended): for a planned (not skipped) face, every split-table entry
of a range with span at least 2 in which at least one candidate's combined
cost is below the maximum holds an interior index strictly between the
range's endpoints; and when that condition holds for all such ranges, the
commit phase completes with every split-table lookup and every boundary
index handed to edge insertion within `[0, n)`.  (Without the condition the
sentinel `-1` can remain — see the counterexample.) -/
theorem split_table_population {M : Type} (ops : MeshOps M)
    (nrm : Point → Point) (fuel : ℕ) (m : M) (f obj : ℕ)
    (hs vs : List ℕ) (T : Tables)
    (hplan : planFace ops nrm fuel m f obj = some (PlanResult.planned hs vs T)) :
    (∀ i k, i + 2 ≤ k → k ≤ hs.length - 1 →
      (∃ mm, i < mm ∧ mm < k ∧
        combineP obj (T.weight i mm) (T.weight mm k)
          (compute_weight ops nrm m vs obj i mm k) < ⊤) →
      ∃ m₀ : ℕ, T.index i k = (m₀ : ℤ) ∧ i < m₀ ∧ m₀ < k) ∧
    ((∀ i k, i + 2 ≤ k → k ≤ hs.length - 1 →
      ∃ mm, i < mm ∧ mm < k ∧
        combineP obj (T.weight i mm) (T.weight mm k)
          (compute_weight ops nrm m vs obj i mm k) < ⊤) →
      ∀ ins : M → ℤ → ℤ → Option M,
      (∀ (mm : M) (a b : ℤ), 0 ≤ a → a < (hs.length : ℤ) → 0 ≤ b →
        b < (hs.length : ℤ) → (ins mm a b).isSome = true) →
      ∃ m', commitLoop hs.length ins T.index (3 ^ hs.length) m
        [(0, (hs.length : ℤ) - 1)] = some m') := by
  obtain ⟨hcw, hn4, hvs, hbt⟩ := planFace_planned_inv hplan
  have hobj : obj = MIN_AREA ∨ obj = MAX_ANGLE := by
    by_contra hno
    push_neg at hno
    rw [buildTables_fatal hno.1 hno.2 hn4] at hbt
    exact Option.noConfusion hbt
  have hfirst : ∀ i k, i + 2 ≤ k → k ≤ hs.length - 1 →
      (∃ mm, i < mm ∧ mm < k ∧
        combineP obj (T.weight i mm) (T.weight mm k)
          (compute_weight ops nrm m vs obj i mm k) < ⊤) →
      ∃ m₀ : ℕ, T.index i k = (m₀ : ℤ) ∧ i < m₀ ∧ m₀ < k := by
    intro i k h2 hk hex
    obtain ⟨m₀, h1, h2', h3', _⟩ := tables_argmin hs.length obj _ T hobj hbt
      i k h2 hk hex
    exact ⟨m₀, h1, h2', h3'⟩
  refine ⟨hfirst, ?_⟩
  intro H ins hins
  apply commit_go hs.length ins T.index ?hidx hins (3 ^ hs.length) _ m
  · intro p hp
    rw [List.mem_singleton] at hp
    subst hp
    exact ⟨le_refl _, by omega, by omega⟩
  · have h1 : stackMeasure [(0, (hs.length : ℤ) - 1)] = 3 ^ (hs.length - 1) := by
      rw [stackMeasure_cons]
      have ht : (((hs.length : ℤ) - 1) - 0).toNat = hs.length - 1 := by omega
      rw [ht]
      rfl
    rw [h1]
    exact Nat.pow_lt_pow_right (by norm_num) (by omega)
  case hidx =>
    intro s e hen hse
    obtain ⟨m₀, h1, h2, h3⟩ := hfirst s e hse (by omega) (H s e hse (by omega))
    rw [h1]
    exact ⟨by omega, by omega⟩

/-- C5 counterexample: the degenerate quad has 4 manifold boundary vertices
and is not skipped (planning completes), yet the split-table entry for the
whole range `(0, 3)` is the sentinel `-1`, not an interior index. -/
theorem split_table_population_cex :
    planFace meshOpsQ id 9 () 0 MAX_ANGLE =
      some (PlanResult.planned [0, 1, 2, 3] [1, 2, 3, 0] TQ) ∧
    TQ.index 0 3 = -1 := ⟨rfl, by decide⟩

/-- Witness for the amended C5 at the unit-square quad: the range `(0, 3)`
has a below-maximum candidate, so its recorded split is interior. -/
theorem split_table_population_witness :
    ∃ m₀ : ℕ, TG.index 0 3 = (m₀ : ℤ) ∧ 0 < m₀ ∧ m₀ < 3 :=
  (split_table_population meshOpsG id 9 () 0 MIN_AREA
    [0, 1, 2, 3] [1, 2, 3, 0] TG rfl).1 0 3 (by decide) (by decide)
    ⟨1, by decide, by decide, by decide⟩

/-! ### Boundary collection: manifoldness checks and early exits -/

theorem walk_manifold_all {ops : MeshOps M} {m : M} {h0 : ℕ} :
    ∀ (fuel h : ℕ) (hs : List ℕ), faceWalkAux ops m h0 fuel h = some hs →
      (∀ x ∈ hs, ops.is_manifold m (ops.to_vertex m x) = true) →
      collectWalkAux ops m h0 fuel h = some (some hs) := by
  intro fuel
  induction fuel with
  | zero =>
    intro h hs hw
    exact absurd hw (by simp [faceWalkAux])
  | succ fuel ih =>
    intro h hs hw hman
    simp only [faceWalkAux] at hw
    rw [collectWalkAux]
    by_cases hh : ops.next_halfedge m h = h0
    · rw [if_pos hh] at hw
      obtain rfl : [h] = hs := Option.some.inj hw
      have hmh : ops.is_manifold m (ops.to_vertex m h) = true :=
        hman h (List.mem_cons_self _ _)
      rw [hmh]
      simp [hh]
    · rw [if_neg hh] at hw
      obtain ⟨l, hl, rfl⟩ := Option.map_eq_some'.mp hw
      have hmh : ops.is_manifold m (ops.to_vertex m h) = true :=
        hman h (List.mem_cons_self _ _)
      rw [hmh]
      simp only [Bool.true_eq_false, if_false]
      rw [if_neg hh, ih (ops.next_halfedge m h) l hl
        (fun x hx => hman x (List.mem_cons_of_mem _ hx))]
      rfl

theorem walk_manifold_ex {ops : MeshOps M} {m : M} {h0 : ℕ} :
    ∀ (fuel h : ℕ) (hs : List ℕ), faceWalkAux ops m h0 fuel h = some hs →
      (∃ x ∈ hs, ops.is_manifold m (ops.to_vertex m x) = false) →
      collectWalkAux ops m h0 fuel h = some none := by
  intro fuel
  induction fuel with
  | zero =>
    intro h hs hw
    exact absurd hw (by simp [faceWalkAux])
  | succ fuel ih =>
    intro h hs hw hex
    simp only [faceWalkAux] at hw
    rw [collectWalkAux]
    by_cases hman : ops.is_manifold m (ops.to_vertex m h) = false
    · rw [hman]
      simp
    · have hmant : ops.is_manifold m (ops.to_vertex m h) = true := by
        cases hb : ops.is_manifold m (ops.to_vertex m h)
        · exact absurd hb hman
        · rfl
      rw [hmant]
      simp only [Bool.true_eq_false, if_false]
      by_cases hh : ops.next_halfedge m h = h0
      · rw [if_pos hh] at hw
        obtain rfl : [h] = hs := Option.some.inj hw
        obtain ⟨x, hx, hxf⟩ := hex
        rw [List.mem_singleton] at hx
        subst hx
        exact absurd hxf (by rw [hmant]; simp)
      · rw [if_neg hh] at hw
        obtain ⟨l, hl, rfl⟩ := Option.map_eq_some'.mp hw
        obtain ⟨x, hx, hxf⟩ := hex
        rcases List.mem_cons.mp hx with rfl | hx
        · exact absurd hxf (by rw [hmant]; simp)
        · rw [if_neg hh, ih (ops.next_halfedge m h) l hl ⟨x, hx, hxf⟩]
          rfl

theorem planFace_of_collect_skip {ops : MeshOps M} {nrm : Point → Point}
    {fuel : ℕ} {m : M} {f obj : ℕ}
    (hc : collectWalk ops m f fuel = some none) :
    planFace ops nrm fuel m f obj = some PlanResult.skip := by
  unfold planFace
  rw [hc]

theorem planFace_of_small {ops : MeshOps M} {nrm : Point → Point}
    {fuel : ℕ} {m : M} {f obj : ℕ} {hs : List ℕ}
    (hc : collectWalk ops m f fuel = some (some hs)) (hlen : hs.length ≤ 3) :
    planFace ops nrm fuel m f obj = some PlanResult.skip := by
  unfold planFace
  rw [hc]
  simp [hlen]

theorem triangulate1_of_skip {ops : MeshOps M} {nrm : Point → Point}
    {fuel : ℕ} {m : M} {f obj : ℕ}
    (hp : planFace ops nrm fuel m f obj = some PlanResult.skip) :
    triangulate1 ops nrm fuel m f obj = some m := by
  unfold triangulate1
  rw [hp]

/-! ### Claim C6: faces with at most three boundary vertices are no-ops -/

/-- C6: a face whose boundary walk closes with at most 3 half-edges is left
unchanged under any objective value, and triangulating a face list all of
whose faces are that small leaves the mesh unchanged (idempotence on a fully
triangulated mesh). -/
theorem small_face_noop {M : Type} (ops : MeshOps M) (nrm : Point → Point)
    (fuel : ℕ) (m : M) (obj : ℕ) :
    (∀ f hs, faceWalk ops m f fuel = some hs → hs.length ≤ 3 →
      triangulate1 ops nrm fuel m f obj = some m) ∧
    (∀ fs : List ℕ,
      (∀ f ∈ fs, ∃ hs, faceWalk ops m f fuel = some hs ∧ hs.length ≤ 3) →
      triangulateAll ops nrm fuel m fs obj = some m) := by
  have hone : ∀ f hs, faceWalk ops m f fuel = some hs → hs.length ≤ 3 →
      triangulate1 ops nrm fuel m f obj = some m := by
    intro f hs hw hlen
    by_cases hall : ∀ x ∈ hs, ops.is_manifold m (ops.to_vertex m x) = true
    · exact triangulate1_of_skip
        (planFace_of_small (walk_manifold_all fuel _ hs hw hall) hlen)
    · push_neg at hall
      obtain ⟨x, hx, hxf⟩ := hall
      have hxf' : ops.is_manifold m (ops.to_vertex m x) = false := by
        cases hb : ops.is_manifold m (ops.to_vertex m x)
        · rfl
        · exact absurd hb hxf
      exact triangulate1_of_skip
        (planFace_of_collect_skip (walk_manifold_ex fuel _ hs hw ⟨x, hx, hxf'⟩))
  refine ⟨hone, ?_⟩
  intro fs
  induction fs with
  | nil => intro _; rfl
  | cons f fs ih =>
    intro hfs
    obtain ⟨hs, hw, hlen⟩ := hfs f (List.mem_cons_self _ _)
    have h1 := hone f hs hw hlen
    unfold triangulateAll
    rw [List.foldlM_cons, h1]
    exact ih (fun f' hf' => hfs f' (List.mem_cons_of_mem _ hf'))

/-- A single triangular face: three boundary half-edges cycling. -/
def meshOps3 : MeshOps Unit :=
  { halfedge := fun _ _ => 0
    next_halfedge := fun _ h => (h + 1) % 3
    to_vertex := fun _ h => (h + 1) % 3
    find_halfedge := fun _ _ _ => none
    is_manifold := fun _ _ => true
    insert_edge := fun _ _ _ => ()
    point := fun _ _ => ⟨0, 0, 0⟩ }

/-- Witness for C6: a triangle face is a no-op, and so is the whole pass
over a mesh consisting of that one face. -/
theorem small_face_noop_witness :
    triangulate1 meshOps3 id 9 () 0 MIN_AREA = some () ∧
    triangulateAll meshOps3 id 9 () [0] MIN_AREA = some () := by
  have h := small_face_noop meshOps3 id 9 () MIN_AREA
  refine ⟨h.1 0 [0, 1, 2] rfl (by decide), h.2 [0] ?_⟩
  intro f hf
  rw [List.mem_singleton] at hf
  subst hf
  exact ⟨[0, 1, 2], rfl, by decide⟩

/-! ### Claim C7: non-manifold boundary vertices skip the face -/

/-- C7: a face whose boundary walk closes but visits a non-manifold vertex
is skipped: no table is produced, the mesh is unchanged, the call is not
fatal, and the triangulate-all loop continues with the remaining faces. -/
theorem nonmanifold_face_skipped {M : Type} (ops : MeshOps M)
    (nrm : Point → Point) (fuel : ℕ) (m : M) (obj f : ℕ) (hs : List ℕ)
    (hw : faceWalk ops m f fuel = some hs)
    (hnm : ∃ x ∈ hs, ops.is_manifold m (ops.to_vertex m x) = false) :
    planFace ops nrm fuel m f obj = some PlanResult.skip ∧
    triangulate1 ops nrm fuel m f obj = some m ∧
    ∀ fs : List ℕ, triangulateAll ops nrm fuel m (f :: fs) obj =
      triangulateAll ops nrm fuel m fs obj := by
  have hc := walk_manifold_ex fuel _ hs hw hnm
  have hp : planFace ops nrm fuel m f obj = some PlanResult.skip :=
    planFace_of_collect_skip hc
  have ht := triangulate1_of_skip hp
  refine ⟨hp, ht, ?_⟩
  intro fs
  unfold triangulateAll
  rw [List.foldlM_cons, ht]
  rfl

/-- A quad face whose third boundary vertex is non-manifold. -/
def meshOpsN : MeshOps Unit :=
  { halfedge := fun _ _ => 0
    next_halfedge := fun _ h => (h + 1) % 4
    to_vertex := fun _ h => (h + 1) % 4
    find_halfedge := fun _ _ _ => none
    is_manifold := fun _ v => v != 2
    insert_edge := fun _ _ _ => ()
    point := fun _ _ => ⟨0, 0, 0⟩ }

/-- Witness for C7: the quad with a non-manifold boundary vertex is skipped
with no mesh change and no fatal error. -/
theorem nonmanifold_face_skipped_witness :
    triangulate1 meshOpsN id 9 () 0 MIN_AREA = some () :=
  (nonmanifold_face_skipped meshOpsN id 9 () MIN_AREA 0 [0, 1, 2, 3] rfl
    ⟨1, by decide, by decide⟩).2.1

/-! ### Claim C9: an unrecognized objective is fatal -/

/-- C9: when an objective selector outside the two recognized modes reaches
the cost computation of a face that requires planning (at least four
manifold boundary vertices), the process aborts (`exit(1)`, modelled as a
fatal plan and a `none` triangulation result) instead of skipping the face
or continuing. -/
theorem invalid_objective_fatal {M : Type} (ops : MeshOps M)
    (nrm : Point → Point) (fuel : ℕ) (m : M) (f obj : ℕ) (hs : List ℕ)
    (hc : collectWalk ops m f fuel = some (some hs)) (hn : 4 ≤ hs.length)
    (h0 : obj ≠ MIN_AREA) (h1 : obj ≠ MAX_ANGLE) :
    planFace ops nrm fuel m f obj = some PlanResult.fatal ∧
    triangulate1 ops nrm fuel m f obj = none := by
  have hlen : ¬ hs.length ≤ 3 := by omega
  have hp : planFace ops nrm fuel m f obj = some PlanResult.fatal := by
    unfold planFace
    rw [hc]
    simp [hlen, buildTables_fatal h0 h1 hn]
  refine ⟨hp, ?_⟩
  unfold triangulate1
  rw [hp]

/-- Witness for C9: objective selector `2` on a planar quad is fatal. -/
theorem invalid_objective_fatal_witness :
    planFace meshOpsG id 9 () 0 2 = some PlanResult.fatal ∧
    triangulate1 meshOpsG id 9 () 0 2 = none :=
  invalid_objective_fatal meshOpsG id 9 () 0 2 [0, 1, 2, 3] rfl
    (by decide) (by decide) (by decide)

/-! ### Claim C2: the geometric weight formulas -/

/-- C2: for a candidate triangle not rejected by the validity gate, the
area-objective weight equals the squared norm of the cross product of the
edge vectors `(b-a)` and `(c-a)`, and the angle-objective weight equals the
maximum over the three vertices of the dot product of the two normalized
edge vectors at that vertex. -/
theorem compute_weight_formulas {M : Type} (ops : MeshOps M)
    (nrm : Point → Point) (m : M) (vertices : List ℕ) (i j k : ℕ)
    (hgate : (is_edge ops m (vertices.getD i 0) (vertices.getD j 0) &&
      is_edge ops m (vertices.getD j 0) (vertices.getD k 0) &&
      is_edge ops m (vertices.getD k 0) (vertices.getD i 0)) = false) :
    compute_weight ops nrm m vertices MIN_AREA i j k =
      ((sqrnorm (cross
        (ops.point m (vertices.getD j 0) - ops.point m (vertices.getD i 0))
        (ops.point m (vertices.getD k 0) - ops.point m (vertices.getD i 0)))
        : ℚ) : Scalar) ∧
    compute_weight ops nrm m vertices MAX_ANGLE i j k =
      ((max (dot
          (nrm (ops.point m (vertices.getD j 0) - ops.point m (vertices.getD i 0)))
          (nrm (ops.point m (vertices.getD k 0) - ops.point m (vertices.getD i 0))))
        (max (dot
          (nrm (ops.point m (vertices.getD i 0) - ops.point m (vertices.getD j 0)))
          (nrm (ops.point m (vertices.getD k 0) - ops.point m (vertices.getD j 0))))
        (dot
          (nrm (ops.point m (vertices.getD i 0) - ops.point m (vertices.getD k 0)))
          (nrm (ops.point m (vertices.getD j 0) - ops.point m (vertices.getD k 0)))))
        : ℚ) : Scalar) := by
  constructor
  · simp only [compute_weight]
    rw [hgate]
    simp [MIN_AREA, MAX_ANGLE]
  · simp only [compute_weight]
    rw [hgate]
    simp [MIN_AREA, MAX_ANGLE]

/-- Witness for C2: the area-objective weight of the first candidate
triangle of the unit-square quad. -/
theorem compute_weight_formulas_witness :
    compute_weight meshOpsG id () [1, 2, 3, 0] MIN_AREA 0 1 2 =
      ((sqrnorm (cross
        (meshOpsG.point () (([1, 2, 3, 0] : List ℕ).getD 1 0) -
          meshOpsG.point () (([1, 2, 3, 0] : List ℕ).getD 0 0))
        (meshOpsG.point () (([1, 2, 3, 0] : List ℕ).getD 2 0) -
          meshOpsG.point () (([1, 2, 3, 0] : List ℕ).getD 0 0)))
        : ℚ) : Scalar) :=
  (compute_weight_formulas meshOpsG id () [1, 2, 3, 0] 0 1 2 (by decide)).1

/-! ### Claim C3: the validity gate fires exactly on three existing edges -/

/-- C3: the weight function returns the maximum representable value (instead
of a geometric weight) if and only if all three of the candidate triangle's
edges already exist somewhere in the mesh; one or two existing edges do not
trigger the gate. -/
theorem compute_weight_gate {M : Type} (ops : MeshOps M) (nrm : Point → Point)
    (m : M) (vertices : List ℕ) (obj : ℕ) (i j k : ℕ)
    (hobj : obj = MIN_AREA ∨ obj = MAX_ANGLE) :
    compute_weight ops nrm m vertices obj i j k = ⊤ ↔
      (is_edge ops m (vertices.getD i 0) (vertices.getD j 0) = true ∧
       is_edge ops m (vertices.getD j 0) (vertices.getD k 0) = true ∧
       is_edge ops m (vertices.getD k 0) (vertices.getD i 0) = true) := by
  cases hgate : (is_edge ops m (vertices.getD i 0) (vertices.getD j 0) &&
      is_edge ops m (vertices.getD j 0) (vertices.getD k 0) &&
      is_edge ops m (vertices.getD k 0) (vertices.getD i 0))
  · constructor
    · intro hw
      exfalso
      simp only [compute_weight] at hw
      rw [hgate] at hw
      rcases hobj with rfl | rfl
      · simp [MIN_AREA, MAX_ANGLE] at hw
      · simp [MIN_AREA, MAX_ANGLE] at hw
    · intro h3
      rw [h3.1, h3.2.1, h3.2.2] at hgate
      simp at hgate
  · have h3 := hgate
    rw [Bool.and_eq_true, Bool.and_eq_true] at h3
    constructor
    · intro _
      exact ⟨h3.1.1, h3.1.2, h3.2⟩
    · intro _
      simp only [compute_weight]
      rw [hgate]
      simp

/-- Witness for C3: on the everywhere-connected quad the gate fires and the
weight is the maximum representable value. -/
theorem compute_weight_gate_witness :
    compute_weight meshOpsQ id () [1, 2, 3, 0] MAX_ANGLE 0 1 2 = ⊤ :=
  (compute_weight_gate meshOpsQ id () [1, 2, 3, 0] MAX_ANGLE 0 1 2
    (Or.inr rfl)).mpr ⟨by decide, by decide, by decide⟩

/-! ### Claim C8: the edge-insertion procedure -/

/-- C8: for in-range boundary indices, edge insertion (a) inserts nothing
and reports `false` when an edge already connects the two vertices, (b)
splits at the forward walk's hit when the walk from `i`'s half-edge finds
`j`'s vertex, (c) otherwise splits at the symmetric walk's hit when that
walk finds `i`'s vertex, and (d) when neither walk finds its target, leaves
the mesh unchanged (logging only) instead of crashing. -/
theorem insert_edge_behavior {M : Type} (ops : MeshOps M) (fuel : ℕ)
    (halfedges vertices : List ℕ) (m : M) (i j : ℤ)
    (hb : 0 ≤ i ∧ i < (halfedges.length : ℤ) ∧ 0 ≤ j ∧
      j < (halfedges.length : ℤ) ∧ i < (vertices.length : ℤ) ∧
      j < (vertices.length : ℤ)) :
    ((ops.find_halfedge m (vertices.getD i.toNat 0)
        (vertices.getD j.toNat 0)).isSome = true →
      insert_edge ops fuel halfedges vertices m i j = some (m, false)) ∧
    (∀ h, (ops.find_halfedge m (vertices.getD i.toNat 0)
        (vertices.getD j.toNat 0)).isSome = false →
      walkFrom ops m (halfedges.getD i.toNat 0) (vertices.getD j.toNat 0)
        fuel = some (some h) →
      insert_edge ops fuel halfedges vertices m i j =
        some (ops.insert_edge m (halfedges.getD i.toNat 0) h, true)) ∧
    (∀ h, (ops.find_halfedge m (vertices.getD i.toNat 0)
        (vertices.getD j.toNat 0)).isSome = false →
      walkFrom ops m (halfedges.getD i.toNat 0) (vertices.getD j.toNat 0)
        fuel = some none →
      walkFrom ops m (halfedges.getD j.toNat 0) (vertices.getD i.toNat 0)
        fuel = some (some h) →
      insert_edge ops fuel halfedges vertices m i j =
        some (ops.insert_edge m (halfedges.getD j.toNat 0) h, true)) ∧
    ((ops.find_halfedge m (vertices.getD i.toNat 0)
        (vertices.getD j.toNat 0)).isSome = false →
      walkFrom ops m (halfedges.getD i.toNat 0) (vertices.getD j.toNat 0)
        fuel = some none →
      walkFrom ops m (halfedges.getD j.toNat 0) (vertices.getD i.toNat 0)
        fuel = some none →
      insert_edge ops fuel halfedges vertices m i j = some (m, false)) := by
  refine ⟨?_, ?_, ?_, ?_⟩
  · intro hfind
    simp only [insert_edge]
    rw [if_pos hb, if_pos hfind]
  · intro h hfind hwalk
    simp only [insert_edge]
    rw [if_pos hb, if_neg (by rw [hfind]; exact Bool.false_ne_true), hwalk]
  · intro h hfind hwalk1 hwalk2
    simp only [insert_edge]
    rw [if_pos hb, if_neg (by rw [hfind]; exact Bool.false_ne_true), hwalk1,
      hwalk2]
  · intro hfind hwalk1 hwalk2
    simp only [insert_edge]
    rw [if_pos hb, if_neg (by rw [hfind]; exact Bool.false_ne_true), hwalk1,
      hwalk2]

/-- A two-sided face loop whose vertices never match a search target. -/
def meshOpsW : MeshOps Unit :=
  { halfedge := fun _ _ => 0
    next_halfedge := fun _ h => 1 - h
    to_vertex := fun _ _ => 5
    find_halfedge := fun _ _ _ => none
    is_manifold := fun _ _ => true
    insert_edge := fun _ _ _ => ()
    point := fun _ _ => ⟨0, 0, 0⟩ }

/-- Witness for C8: when no edge exists and both directional walks close
without finding the target vertex, the mesh is left unchanged. -/
theorem insert_edge_behavior_witness :
    insert_edge meshOpsW 9 [0, 1] [7, 8] () 0 1 = some ((), false) :=
  (insert_edge_behavior meshOpsW 9 [0, 1] [7, 8] () 0 1
    (by decide)).2.2.2 (by decide) (by decide) (by decide)

end pmp
